import Mathlib

/-
Verification of the chandodaya metrical analysis engine.

This file gives a shallow embedding, in Lean 4, of the core components of the
chandodaya repository (a Sanskrit meter identification system):

  * src/syllabifier.py      -- aksara segmentation FSM, weights, ganas
  * src/normalization.py    -- the svara-mark table and svara stripping
  * src/pada_sandhi.py      -- pada splitting and the sandhi profile
  * src/rule_based_classifier.py -- the two-layer meter classifier
  * src/chanda_parser.py    -- the deviation-label inference function

Python strings are embedded as `List Char` (Python iterates strings by code
point, which matches Lean's `Char`).  Python `None`-able values are embedded
as `Option`.  The two runtime exceptions reachable from the embedded code
(`ValueError` from `max()` of an empty sequence, `KeyError` from a missing
dict key) are embedded as an explicit `Except` error value.  Diagnostic note
strings are embedded as constructors of an inductive `Note` type carrying the
interpolated data of the corresponding f-string in the source.
-/

namespace PyCompat

/-- The set of characters for which Python's `str.isspace` returns True
(Unicode whitespace; used by `.strip()`, `.split()` and `ch.isspace()`). -/
def pySpaceChars : List Char :=
  ['\u0009', '\u000A', '\u000B', '\u000C', '\u000D', '\u001C', '\u001D',
   '\u001E', '\u001F', '\u0020', '\u0085', '\u00A0', '\u1680', '\u2000',
   '\u2001', '\u2002', '\u2003', '\u2004', '\u2005', '\u2006', '\u2007',
   '\u2008', '\u2009', '\u200A', '\u2028', '\u2029', '\u202F', '\u205F',
   '\u3000']

def pyIsSpace (c : Char) : Bool := pySpaceChars.contains c

/-- Python `s.strip()`: drop leading and trailing whitespace. -/
def pyStrip (cs : List Char) : List Char :=
  ((cs.dropWhile pyIsSpace).reverse.dropWhile pyIsSpace).reverse

/-- Python `s.split(sep)` for a one-character separator: split at every
occurrence of `sep`, keeping empty chunks. -/
def splitOnChar (sep : Char) (cs : List Char) : List (List Char) :=
  cs.foldr
    (fun c acc =>
      if c = sep then [] :: acc
      else match acc with
        | [] => [[c]]
        | a :: as => (c :: a) :: as)
    [[]]

/-- Python `s.split()` (no argument): split on whitespace runs, no empty chunks.
Auxiliary: `cur` is the reversed current word. -/
def pyWordsAux (cur : List Char) : List Char → List (List Char)
  | [] => if cur = [] then [] else [cur.reverse]
  | c :: cs =>
    if pyIsSpace c then
      if cur = [] then pyWordsAux [] cs else cur.reverse :: pyWordsAux [] cs
    else pyWordsAux (c :: cur) cs

def pyWords (cs : List Char) : List (List Char) := pyWordsAux [] cs

def isAsciiDigit (c : Char) : Bool := '0' ≤ c && c ≤ '9'

def digitsVal (ds : List Char) : Nat :=
  ds.foldl (fun n c => 10 * n + (c.toNat - '0'.toNat)) 0

/-- Python `int(p)` on the stripped tokens arising in this code base: an
optional sign followed by ASCII digits; anything else fails (`none` embeds
the `ValueError` that the callers catch and turn into a skip).  Python's
`int` additionally accepts underscore separators and non-ASCII decimal
digits; those forms do not occur in this pipeline's data. -/
def pyInt? (cs : List Char) : Option Int :=
  match cs with
  | [] => none
  | '+' :: ds =>
    if ds ≠ [] && ds.all isAsciiDigit then some (digitsVal ds) else none
  | '-' :: ds =>
    if ds ≠ [] && ds.all isAsciiDigit then some (-(digitsVal ds : Int)) else none
  | ds =>
    if ds.all isAsciiDigit then some (digitsVal ds) else none

end PyCompat

namespace Normalization

/-- `SVARA_MARKS` from src/normalization.py: Vedic accent combining marks. -/
def SVARA_MARKS : List Char :=
  ['॑', '॒', '॓', '॔',
   '᳐', '᳑', '᳒', '᳓', '᳔', '᳕', '᳖',
   '᳗', '᳘', '᳙', '᳚', '᳛', '᳜', '᳝',
   '᳞', '᳟', '᳠', '᳡', '᳢', '᳣', '᳤',
   '᳥', '᳦', '᳧', '᳨', 'ᳲ', 'ᳳ', '᳴']

def isSvara (c : Char) : Bool := SVARA_MARKS.contains c

/-- `strip_svara_marks` from src/normalization.py:
keep exactly the characters not in `SVARA_MARKS`. -/
def stripSvaraChars (cs : List Char) : List Char :=
  cs.filter (fun c => !(isSvara c))

def strip_svara_marks (s : String) : String :=
  String.mk (stripSvaraChars s.toList)

end Normalization

namespace Syllabifier

/-- `INDEPENDENT_VOWELS` from src/syllabifier.py. -/
def INDEPENDENT_VOWELS : List Char :=
  ['अ', 'आ', 'इ', 'ई', 'उ', 'ऊ', 'ऋ', 'ॠ', 'ऌ', 'ॡ', 'ए', 'ऐ', 'ओ', 'औ', 'ॐ']

/-- `DEPENDENT_VOWEL_SIGNS` from src/syllabifier.py. -/
def DEPENDENT_VOWEL_SIGNS : List Char :=
  ['ा', 'ि', 'ी', 'ु', 'ू', 'ृ', 'ॄ', 'ॢ', 'ॣ', 'े', 'ै', 'ो', 'ौ', 'ॅ', 'ॉ', 'ॆ', 'ॊ']

def ANUSVARA : Char := 'ं'
def VISARGA : Char := 'ः'
def CANDRABINDU : Char := 'ँ'
def NUKTA : Char := '़'

/-- `CONSONANTS` from src/syllabifier.py. -/
def CONSONANTS : List Char :=
  ['क', 'ख', 'ग', 'घ', 'ङ', 'च', 'छ', 'ज', 'झ', 'ञ',
   'ट', 'ठ', 'ड', 'ढ', 'ण', 'त', 'थ', 'द', 'ध', 'न',
   'प', 'फ', 'ब', 'भ', 'म', 'य', 'र', 'ल', 'व', 'श', 'ष', 'स', 'ह']

/-- `GANA_MAP` from src/syllabifier.py. -/
def GANA_MAP : List (String × String) :=
  [("LLL", "na"), ("LLG", "ya"), ("LGL", "ta"), ("LGG", "ra"),
   ("GLL", "ma"), ("GLG", "bha"), ("GGL", "sa"), ("GGG", "ja")]

def isIndependentVowel (c : Char) : Bool := INDEPENDENT_VOWELS.contains c
def isDependentVowel (c : Char) : Bool := DEPENDENT_VOWEL_SIGNS.contains c
def isConsonant (c : Char) : Bool := CONSONANTS.contains c
def isMark (c : Char) : Bool :=
  c = ANUSVARA || c = VISARGA || c = CANDRABINDU || c = NUKTA

/-- short / long vowel sets of `_matra_for_vowel`. -/
def SHORT_VOWELS : List Char := ['अ', 'इ', 'उ', 'ऋ', 'ऌ', 'ि', 'ु', 'ृ', 'ॢ']
def LONG_VOWELS : List Char :=
  ['आ', 'ई', 'ऊ', 'ॠ', 'ॡ', 'ए', 'ऐ', 'ओ', 'औ',
   'ा', 'ी', 'ू', 'ॄ', 'ॣ', 'े', 'ै', 'ो', 'ौ']

/-- `_matra_for_vowel` from src/syllabifier.py. -/
def matraForVowel (v : Char) : Nat :=
  if LONG_VOWELS.contains v then 2
  else if SHORT_VOWELS.contains v then 1
  else 1

/-- The `Akshara` dataclass from src/syllabifier.py (text spans kept as
`List Char`). -/
structure Akshara where
  text : List Char
  vowel : Char
  coda : List Char
  prosodic_matra : Nat
  phonetic_matra : Nat
  guru_reason : String
deriving DecidableEq, Repr

/-- `Akshara.L_or_G` from src/syllabifier.py. -/
def Akshara.L_or_G (a : Akshara) : Char :=
  if a.prosodic_matra ≥ 2 then 'G' else 'L'

/-- The mutable locals of `syllabify_line` (`aksharas`, `cur_text`,
`cur_vowel`, `cur_coda`). -/
structure SylState where
  aksharas : List Akshara
  curText : List Char
  curVowel : Option Char
  curCoda : List Char
deriving DecidableEq, Repr

def initState : SylState := ⟨[], [], none, []⟩

/-- `flush_current` from src/syllabifier.py. -/
def flushCurrent (st : SylState) : SylState :=
  if st.curText = [] ∧ st.curVowel = none ∧ st.curCoda = [] then st
  else
    let fullText := st.curText ++ st.curCoda
    let vowel := st.curVowel.getD 'अ'
    let coda := st.curCoda
    let pros0 := matraForVowel vowel
    let pros := if coda = [] then pros0 else max pros0 2
    let reason :=
      if coda ≠ [] then "coda_cluster"
      else if pros0 ≥ 2 then "long_vowel"
      else "short_open"
    ⟨st.aksharas ++ [⟨fullText, vowel, coda, pros, pros, reason⟩], [], none, []⟩

/-- One iteration of the character loop of `syllabify_line`, in the source's
branch order: whitespace/danda, independent vowel, consonant, dependent
vowel sign, combining mark, defensive fallback. -/
def step (st : SylState) (ch : Char) : SylState :=
  if PyCompat.pyIsSpace ch || ch = '|' || ch = '।' || ch = '॥' then
    flushCurrent st
  else if isIndependentVowel ch then
    let st' := flushCurrent st
    ⟨st'.aksharas, [ch], some ch, []⟩
  else if isConsonant ch then
    if st.curText = [] ∧ st.curVowel = none then
      ⟨st.aksharas, [ch], some 'अ', []⟩
    else
      { st with curText := st.curText ++ [ch] }
  else if isDependentVowel ch then
    if st.curText = [] then
      let st' := flushCurrent st
      ⟨st'.aksharas, [ch], some ch, []⟩
    else
      { st with curText := st.curText ++ [ch], curVowel := some ch }
  else if isMark ch then
    { st with curCoda := st.curCoda ++ [ch] }
  else
    { st with curText := st.curText ++ [ch] }

def processChars (st : SylState) : List Char → SylState
  | [] => st
  | c :: cs => processChars (step st c) cs

/-- The triplet grouping of `lg_to_ganas`: complete leading triplets are
named via `GANA_MAP` (default "?"), the trailing 1-2 tags are dropped. -/
def ganaChunks : List Char → List String
  | a :: b :: c :: rest =>
    ((GANA_MAP.lookup (String.mk [a, b, c])).getD "?") :: ganaChunks rest
  | _ => []

/-- `lg_to_ganas` from src/syllabifier.py. -/
def lgToGanas (lg : List Char) : List String :=
  ganaChunks (PyCompat.pyStrip (lg.filter (fun c => c ≠ ' ')))

/-- `syllabify_line` from src/syllabifier.py, on a character list. -/
def syllabifyChars (cs : List Char) : List Akshara × List Char × List String :=
  let st := flushCurrent (processChars initState cs)
  let lg := st.aksharas.map Akshara.L_or_G
  (st.aksharas, lg, lgToGanas lg)

/-- `syllabify_line` from src/syllabifier.py. -/
def syllabifyLine (text : String) : List Akshara × String × List String :=
  let r := syllabifyChars text.toList
  (r.1, String.mk r.2.1, r.2.2)

/-- The characters discarded by the FSM (whitespace and danda markers). -/
def isBoundary (c : Char) : Bool :=
  PyCompat.pyIsSpace c || c = '|' || c = '।' || c = '॥'

end Syllabifier

namespace PadaSandhi

/-- The counters of `compute_sandhi_profile`. -/
structure SandhiProfile where
  word_final_visarga : Nat
  word_final_anusvara : Nat
  internal_clusters : Nat
deriving DecidableEq, Repr

/-- The `Pada` dataclass from src/pada_sandhi.py. -/
structure Pada where
  text : List Char
  index : Nat
  sandhi_profile : SandhiProfile
deriving DecidableEq, Repr

/-- vowel set of `_is_consonant_like` from src/pada_sandhi.py. -/
def sandhiVowels : List Char :=
  ['अ', 'आ', 'इ', 'ई', 'उ', 'ऊ', 'ऋ', 'ॠ', 'ऌ', 'ॡ', 'ए', 'ऐ', 'ओ', 'औ',
   'ा', 'ि', 'ी', 'ु', 'ू', 'ृ', 'ॄ', 'ॢ', 'ॣ', 'े', 'ै', 'ो', 'ौ']

def sandhiSpecials : List Char := ['ं', 'ः', 'ँ']

/-- `_is_consonant_like` from src/pada_sandhi.py. -/
def isConsonantLike (c : Char) : Bool :=
  if sandhiVowels.contains c then false
  else if sandhiSpecials.contains c then false
  else if PyCompat.pyIsSpace c then false
  else true

/-- consecutive consonant-like pairs, as counted by `compute_sandhi_profile`. -/
def clusterCount : List Char → Nat
  | a :: b :: rest =>
    (if isConsonantLike a && isConsonantLike b then 1 else 0) + clusterCount (b :: rest)
  | _ => 0

/-- `compute_sandhi_profile` from src/pada_sandhi.py. -/
def computeSandhiProfile (cs : List Char) : SandhiProfile :=
  (PyCompat.pyWords cs).foldl
    (fun pr w =>
      { word_final_visarga :=
          pr.word_final_visarga + (if w.getLast? = some 'ः' then 1 else 0)
        word_final_anusvara :=
          pr.word_final_anusvara + (if w.getLast? = some 'ं' then 1 else 0)
        internal_clusters := pr.internal_clusters + clusterCount w })
    ⟨0, 0, 0⟩

/-- The `text.replace("||", "|")` step of `split_padas`: leftmost,
non-overlapping replacement. -/
def collapseDouble : List Char → List Char
  | [] => []
  | [c] => [c]
  | c1 :: c2 :: rest =>
    if c1 = '|' ∧ c2 = '|' then '|' :: collapseDouble rest
    else c1 :: collapseDouble (c2 :: rest)

/-- `split_padas` from src/pada_sandhi.py. -/
def split_padas (cs : List Char) : List Pada :=
  let chunks :=
    ((PyCompat.splitOnChar '|' (collapseDouble cs)).map PyCompat.pyStrip).filter
      (fun c => c ≠ [])
  chunks.enum.map (fun p => ⟨p.2, p.1, computeSandhiProfile p.2⟩)

end PadaSandhi

namespace RuleBasedClassifier

/-- The two Python runtime exceptions reachable from the embedded code:
`ValueError` (from `max()` of an empty sequence) and `KeyError` (from a
missing dict key in the matched-rule note). -/
inductive PyErr where
  | valueError
  | keyError
deriving DecidableEq, Repr

/-- One record of chanda_rules.json as consumed by the classifier; every
field is optional because the source reads them with `dict.get`. -/
structure ChandaRule where
  label : Option String
  pada_count : Option Int
  syllable_pattern : Option (List Int)
  max_diff_tolerance : Option Int
  count : Option Int
  base_family : Option String
deriving DecidableEq, Repr

/-- Diagnostic notes; each constructor stands for one f-string note of the
source, carrying the interpolated data. -/
inductive Note where
  | parsedCounts (counts : List Int)
  | padaCountInfo (padaCount : Int) (veda : String)
  | noRulesLoaded
  | tryingMatch (padaCount : Int) (counts : List Int) (numRules : Nat)
  | noRuleMatched
  | matchedRule (label : String) (pattern : List Int) (tol : Int) (support : Int) (score : Nat)
  | usingFamilyFromRule (fam : String)
  | ruleNoFamily
  | noCounts
  | pingalaExact (padaCount : Int) (n : Int) (fam : String)
  | pingalaFallback (fam : String) (first : Int)
  | pingalaNoFamily
  | familyNotInMap (fam : String)
  | deviationNoLabel (D : Int)
  | deviationLabel (D : Int) (label : String)
deriving DecidableEq, Repr

/-- The `RuleBasedResult` dataclass from src/rule_based_classifier.py. -/
structure RuleBasedResult where
  base_family : Option String
  deviation_D : Option Int
  deviation_label : Option String
  full_label : Option String
  notes : List Note
deriving DecidableEq, Repr

/-- `BASE_METER_SYLLABLES` from src/rule_based_classifier.py, in the
source's (dict insertion) order. -/
def BASE_METER_SYLLABLES : List (String × Int) :=
  [("gayatri", 8), ("ushnih", 7), ("anushtubh", 8), ("brihati", 9),
   ("pankti", 8), ("trishtubh", 11), ("jagati", 12)]

/-- `_parse_counts` from src/rule_based_classifier.py. -/
def parseCounts (s : String) : List Int :=
  let cs := s.toList
  if cs = [] then []
  else
    (((PyCompat.splitOnChar ',' cs).map PyCompat.pyStrip).filter
        (fun p => p ≠ [])).filterMap PyCompat.pyInt?

/-- `_infer_deviation_label` from src/rule_based_classifier.py. -/
def inferDeviationLabel (D : Int) : Option String :=
  if D = -1 then some "nichrid"
  else if D = 1 then some "bhurik"
  else if D = 2 then some "viraj"
  else if D ≥ 3 then some "svaraj"
  else none

/-- `max(abs(c - r) for c, r in zip(counts, rule_pattern))` (total version;
the caller raises `ValueError` before calling this when the zip is empty). -/
def maxAbsDiff (counts pat : List Int) : Nat :=
  (counts.zip pat).foldl (fun m p => max m (p.1 - p.2).natAbs) 0

/-- The rule scan of `_match_chanda_rule`: the running state is
(best_rule, best_score, best_support). -/
def matchLoop (pc : Int) (counts : List Int) :
    Option ChandaRule × Option Nat × Option Int → List ChandaRule →
    Except PyErr (Option ChandaRule × Option Nat × Option Int)
  | st, [] => .ok st
  | st, r :: rest =>
    match r.pada_count, r.syllable_pattern with
    | some rp, some pat =>
      if rp = pc then
        if pat.length = counts.length then
          if counts.length = 0 then .error .valueError
          else
            let d := maxAbsDiff counts pat
            let tol := r.max_diff_tolerance.getD 0
            let cnt := r.count.getD 0
            if (d : Int) > tol then matchLoop pc counts st rest
            else
              match st with
              | (_, none, _) => matchLoop pc counts (some r, some d, some cnt) rest
              | (bf, some bs, bsup) =>
                if d < bs ∨ (d = bs ∧ cnt > bsup.getD 0) then
                  matchLoop pc counts (some r, some d, some cnt) rest
                else matchLoop pc counts (bf, some bs, bsup) rest
        else matchLoop pc counts st rest
      else matchLoop pc counts st rest
    | _, _ => matchLoop pc counts st rest

/-- `_match_chanda_rule` from src/rule_based_classifier.py.  The final
matched-rule note subscripts `best_rule['label']`, `['max_diff_tolerance']`
and `['count']` directly, so a winning rule missing one of these keys
raises `KeyError`. -/
def matchChandaRule (pc : Int) (counts : List Int) (rules : List ChandaRule) :
    Except PyErr (Option ChandaRule × List Note) :=
  if rules = [] then .ok (none, [.noRulesLoaded])
  else
    match matchLoop pc counts (none, none, none) rules with
    | .error e => .error e
    | .ok (none, _, _) =>
      .ok (none, [.tryingMatch pc counts rules.length, .noRuleMatched])
    | .ok (some r, score, _) =>
      match r.label, r.syllable_pattern, r.max_diff_tolerance, r.count with
      | some lab, some pat, some tol, some cnt =>
        .ok (some r,
          [.tryingMatch pc counts rules.length,
           .matchedRule lab pat tol cnt (score.getD 0)])
      | _, _, _, _ => .error .keyError

/-- The exact canonical (pada_count, syllable_count) table: the if-chain of
`_choose_base_family_pingala`. -/
def exactCombo (pc : Int) (n : Int) : Option String :=
  if pc = 3 ∧ n = 8 then some "gayatri"
  else if pc = 4 ∧ n = 8 then some "anushtubh"
  else if pc = 5 ∧ n = 8 then some "pankti"
  else if pc = 4 ∧ n = 11 then some "trishtubh"
  else if pc = 4 ∧ n = 12 then some "jagati"
  else if pc = 4 ∧ n = 9 then some "brihati"
  else if 2 ≤ pc ∧ pc ≤ 4 ∧ n = 7 then some "ushnih"
  else none

/-- The closest-target scan of `_choose_base_family_pingala`: the running
state is (best_family, best_D_abs); a later family replaces the current one
only on a strictly smaller |D|. -/
def chooseLoop (first : Int) :
    Option String × Option Nat → List (String × Int) → Option String × Option Nat
  | st, [] => st
  | (bf, bd), p :: rest =>
    let D := first - p.2
    match bd with
    | none => chooseLoop first (some p.1, some D.natAbs) rest
    | some b =>
      if D.natAbs < b then chooseLoop first (some p.1, some D.natAbs) rest
      else chooseLoop first (bf, some b) rest

/-- `_choose_base_family_pingala` from src/rule_based_classifier.py. -/
def chooseBaseFamilyPingala (pc : Int) (counts : List Int) :
    Option String × List Note :=
  match counts with
  | [] => (none, [.noCounts])
  | first :: rest =>
    match (if (first :: rest).all (fun c => c = first) then exactCombo pc first else none) with
    | some fam => (some fam, [.pingalaExact pc first fam])
    | none =>
      match (chooseLoop first (none, none) BASE_METER_SYLLABLES).1 with
      | some fam => (some fam, [.pingalaFallback fam first])
      | none => (none, [.pingalaNoFamily])

/-- Python `a or b` on an optional string `a` and string `b`
(`None` and `""` are falsy). -/
def pyStrOr (a : Option String) (b : String) : String :=
  match a with
  | none => b
  | some s => if s = "" then b else s

/-- `classify_rule_based` from src/rule_based_classifier.py. -/
def classifyRuleBased (pc : Int) (syllableCountPerPada : String)
    (sourceVeda : String) (rules : List ChandaRule) :
    Except PyErr RuleBasedResult :=
  let counts := parseCounts syllableCountPerPada
  match matchChandaRule pc counts rules with
  | .error e => .error e
  | .ok (ruleOpt, ruleNotes) =>
    let notes1 : List Note :=
      [.parsedCounts counts, .padaCountInfo pc sourceVeda] ++ ruleNotes
    let full_label := ruleOpt.bind (fun r => r.label)
    let bf0 := ruleOpt.bind (fun r => r.base_family)
    let notes2 := notes1 ++
      (match ruleOpt with
       | none => []
       | some r =>
         match r.base_family with
         | some fam => if fam = "" then [.ruleNoFamily] else [.usingFamilyFromRule fam]
         | none => [.ruleNoFamily])
    let bfPair :=
      match bf0 with
      | some f => (some f, notes2)
      | none =>
        let pr := chooseBaseFamilyPingala pc counts
        (pr.1, notes2 ++ pr.2)
    match bfPair.1, counts with
    | none, _ => .ok ⟨none, none, none, full_label, bfPair.2⟩
    | some _, [] => .ok ⟨none, none, none, full_label, bfPair.2⟩
    | some f, c0 :: _ =>
      match BASE_METER_SYLLABLES.lookup f with
      | none =>
        .ok ⟨some f, none, none, some (pyStrOr full_label f),
             bfPair.2 ++ [.familyNotInMap f]⟩
      | some target =>
        let D := c0 - target
        match inferDeviationLabel D with
        | none =>
          .ok ⟨some f, some D, none, some (pyStrOr full_label f),
               bfPair.2 ++ [.deviationNoLabel D]⟩
        | some dev =>
          .ok ⟨some f, some D, some dev,
               some (pyStrOr full_label (dev ++ " " ++ f)),
               bfPair.2 ++ [.deviationLabel D dev]⟩

end RuleBasedClassifier

namespace ChandaParser

/-- `infer_deviation_label_from_D` from src/chanda_parser.py. -/
def inferDeviationLabelFromD (D : Int) : Option String :=
  if D = -1 then some "nichrid"
  else if D = 1 then some "bhurik"
  else if D = 2 then some "viraj"
  else if D ≥ 3 then some "svaraj"
  else none

end ChandaParser

namespace Syllabifier

/-- A text is svara-safe when every svara mark is read while a syllable is
open (i.e. the FSM's text buffer is non-empty at that moment). -/
def svaraSafeAux (st : SylState) : List Char → Bool
  | [] => true
  | c :: rest =>
    if Normalization.isSvara c && st.curText.isEmpty then false
    else svaraSafeAux (step st c) rest

def svaraSafe (s : String) : Bool := svaraSafeAux initState s.toList

/-- The two-run invariant relating the FSM state on a text with svara marks
(`R`) and on the same text with the marks removed (`S`): the produced weight
tags agree, the open syllable's nucleus and coda agree, and the open text
buffers differ only by embedded svara marks. -/
def WeightInv (R S : SylState) : Prop :=
  R.aksharas.map Akshara.L_or_G = S.aksharas.map Akshara.L_or_G ∧
  R.curVowel = S.curVowel ∧
  R.curCoda = S.curCoda ∧
  S.curText = R.curText.filter (fun c => !(Normalization.isSvara c)) ∧
  (R.curText = [] ↔ S.curText = [])

end Syllabifier

namespace RuleBasedClassifier

/-- Candidacy in Layer 1: matching `pada_count` and a canonical pattern of
the observed length. -/
def isCandidate (pc : Int) (counts : List Int) (r : ChandaRule) : Prop :=
  r.pada_count = some pc ∧
  ∃ pat, r.syllable_pattern = some pat ∧ pat.length = counts.length

def ruleDiff (counts : List Int) (r : ChandaRule) : Nat :=
  maxAbsDiff counts (r.syllable_pattern.getD [])

def ruleTol (r : ChandaRule) : Int := r.max_diff_tolerance.getD 0

def ruleSupport (r : ChandaRule) : Int := r.count.getD 0

/-- Acceptance in Layer 1: candidacy plus max-diff within tolerance. -/
def isAccepted (pc : Int) (counts : List Int) (r : ChandaRule) : Prop :=
  isCandidate pc counts r ∧ (ruleDiff counts r : Int) ≤ ruleTol r

/-- Well-formedness of the scan state of `_match_chanda_rule`. -/
def GoodSt (pc : Int) (counts : List Int)
    (st : Option ChandaRule × Option Nat × Option Int) : Prop :=
  st = (none, none, none) ∨
  ∃ r, isAccepted pc counts r ∧
    st = (some r, some (ruleDiff counts r), some (ruleSupport r))

/-- The scan state strictly-or-equally beats a rule in the (diff, support)
lexicographic order. -/
def BeatsSt (counts : List Int)
    (st : Option ChandaRule × Option Nat × Option Int) (r' : ChandaRule) : Prop :=
  ∃ d c, st.2.1 = some d ∧ st.2.2 = some c ∧
    (d < ruleDiff counts r' ∨ (d = ruleDiff counts r' ∧ ruleSupport r' ≤ c))

/-- The later scan state is at least as good as the earlier one. -/
def StLE (st' st : Option ChandaRule × Option Nat × Option Int) : Prop :=
  ∀ d c, st.2.1 = some d → st.2.2 = some c →
    ∃ d' c', st'.2.1 = some d' ∧ st'.2.2 = some c' ∧
      (d' < d ∨ (d' = d ∧ c ≤ c'))

def distOf (first : Int) (p : String × Int) : Nat := (first - p.2).natAbs

/-- The minimum of `distOf first` over a family list (`none` for the empty
list). -/
def minDistList (first : Int) : List (String × Int) → Option Nat
  | [] => none
  | p :: rest =>
    some (match minDistList first rest with
          | none => distOf first p
          | some m => min (distOf first p) m)

/-- Spec-side rendering of the closest-family selection: the first family in
the fixed order of the table whose target is at minimal absolute distance
from the first pada's syllable count. -/
def closestFamilySpec (first : Int) : Option String :=
  match minDistList first BASE_METER_SYLLABLES with
  | none => none
  | some m =>
    (BASE_METER_SYLLABLES.find? (fun p => distOf first p == m)).map Prod.fst

end RuleBasedClassifier

/-- The concrete tolerance-example rule of C1: canonical pattern [8,8,8,8]
with tolerance 1 and support 5. -/
def anushtubhRule : RuleBasedClassifier.ChandaRule :=
  ⟨some "anushtubh", some 4, some [8, 8, 8, 8], some 1, some 5, some "anushtubh"⟩

namespace RuleBasedClassifier

lemma classify_error (pc : Int) (s veda : String) (rules : List ChandaRule) (e : PyErr)
    (hm : matchChandaRule pc (parseCounts s) rules = .error e) :
    classifyRuleBased pc s veda rules = .error e := by
  simp only [classifyRuleBased, hm]

lemma chooseLoop_some (first : Int) :
    ∀ (l : List (String × Int)) (f : String) (d : Nat),
      ∃ f' d', chooseLoop first (some f, some d) l = (some f', some d') := by
  intro l
  induction l with
  | nil => intro f d; exact ⟨f, d, rfl⟩
  | cons p rest ih =>
    intro f d
    simp only [chooseLoop]
    by_cases h : (first - p.2).natAbs < d
    · simpa [h] using ih p.1 (first - p.2).natAbs
    · simpa [h] using ih f d

lemma choose_total (pc : Int) (c0 : Int) (cs : List Int) :
    ((chooseBaseFamilyPingala pc (c0 :: cs)).1).isSome := by
  simp only [chooseBaseFamilyPingala]
  cases hx : (if (c0 :: cs).all (fun c => c = c0) then exactCombo pc c0 else none) with
  | some fam => simp
  | none =>
    simp only []
    have h8 : chooseLoop c0 (none, none) BASE_METER_SYLLABLES =
        chooseLoop c0 (some "gayatri", some (c0 - 8).natAbs) (BASE_METER_SYLLABLES.tail) := by
      simp [BASE_METER_SYLLABLES, chooseLoop]
    obtain ⟨f', d', hfd⟩ := chooseLoop_some c0 (BASE_METER_SYLLABLES.tail) "gayatri" (c0 - 8).natAbs
    rw [h8, hfd]
    simp

lemma choose_exact (pc : Int) (n : Int) (rest : List Int) (fam : String)
    (hall : (n :: rest).all (fun c => c = n) = true)
    (hcombo : exactCombo pc n = some fam) :
    chooseBaseFamilyPingala pc (n :: rest) = (some fam, [.pingalaExact pc n fam]) := by
  simp only [chooseBaseFamilyPingala, hall, if_true, hcombo]

lemma classify_ok_of_family (pc : Int) (s veda : String) (rules : List ChandaRule)
    (ro : Option ChandaRule) (rn : List Note) (f : String) (c0 : Int) (cs : List Int)
    (hm : matchChandaRule pc (parseCounts s) rules = .ok (ro, rn))
    (hc : parseCounts s = c0 :: cs)
    (hf : (match ro.bind (fun r => r.base_family) with
           | some g => some g
           | none => (chooseBaseFamilyPingala pc (c0 :: cs)).1) = some f) :
    ∃ res, classifyRuleBased pc s veda rules = .ok res ∧
      res.base_family = some f ∧
      res.deviation_D = (BASE_METER_SYLLABLES.lookup f).map (fun t => c0 - t) ∧
      res.deviation_label =
        (BASE_METER_SYLLABLES.lookup f).bind (fun t => inferDeviationLabel (c0 - t)) := by
  rw [hc] at hm
  cases hbf : ro.bind (fun r => r.base_family) with
  | some g =>
    rw [hbf] at hf
    have hgf : some g = some f := hf
    obtain rfl : f = g := (Option.some.inj hgf).symm
    cases hlook : BASE_METER_SYLLABLES.lookup f with
    | none =>
      simp only [classifyRuleBased, hc, hm, hbf, hlook]
      refine ⟨_, rfl, rfl, ?_, ?_⟩ <;> simp [hlook]
    | some t =>
      cases hinf : inferDeviationLabel (c0 - t) with
      | none =>
        simp only [classifyRuleBased, hc, hm, hbf, hlook, hinf]
        refine ⟨_, rfl, rfl, ?_, ?_⟩ <;> simp [hlook, hinf]
      | some dev =>
        simp only [classifyRuleBased, hc, hm, hbf, hlook, hinf]
        refine ⟨_, rfl, rfl, ?_, ?_⟩ <;> simp [hlook, hinf]
  | none =>
    rw [hbf] at hf
    have h2 : (chooseBaseFamilyPingala pc (c0 :: cs)).1 = some f := hf
    cases hlook : BASE_METER_SYLLABLES.lookup f with
    | none =>
      simp only [classifyRuleBased, hc, hm, hbf, h2, hlook]
      refine ⟨_, rfl, rfl, ?_, ?_⟩ <;> simp [hlook]
    | some t =>
      cases hinf : inferDeviationLabel (c0 - t) with
      | none =>
        simp only [classifyRuleBased, hc, hm, hbf, h2, hlook, hinf]
        refine ⟨_, rfl, rfl, ?_, ?_⟩ <;> simp [hlook, hinf]
      | some dev =>
        simp only [classifyRuleBased, hc, hm, hbf, h2, hlook, hinf]
        refine ⟨_, rfl, rfl, ?_, ?_⟩ <;> simp [hlook, hinf]

lemma classify_ok_of_no_family (pc : Int) (s veda : String) (rules : List ChandaRule)
    (ro : Option ChandaRule) (rn : List Note)
    (hm : matchChandaRule pc (parseCounts s) rules = .ok (ro, rn))
    (hnone : (match ro.bind (fun r => r.base_family) with
              | some g => some g
              | none => (chooseBaseFamilyPingala pc (parseCounts s)).1) = none
             ∨ parseCounts s = []) :
    ∃ res, classifyRuleBased pc s veda rules = .ok res ∧ res.base_family = none ∧
      res.deviation_D = none ∧ res.deviation_label = none := by
  cases hcv : parseCounts s with
  | nil =>
    rw [hcv] at hm
    cases hbf : ro.bind (fun r => r.base_family) with
    | some g =>
      simp only [classifyRuleBased, hcv, hm, hbf]
      exact ⟨_, rfl, rfl, rfl, rfl⟩
    | none =>
      simp only [classifyRuleBased, hcv, hm, hbf, chooseBaseFamilyPingala]
      exact ⟨_, rfl, rfl, rfl, rfl⟩
  | cons c0 cs =>
    rw [hcv] at hm
    have hn : (match ro.bind (fun r => r.base_family) with
              | some g => some g
              | none => (chooseBaseFamilyPingala pc (parseCounts s)).1) = none := by
      rcases hnone with h | h
      · exact h
      · rw [hcv] at h; exact absurd h (by simp)
    cases hbf : ro.bind (fun r => r.base_family) with
    | some g =>
      rw [hbf] at hn
      exact absurd (show (some g : Option String) = none from hn) (by simp)
    | none =>
      rw [hbf, hcv] at hn
      have h2 : (chooseBaseFamilyPingala pc (c0 :: cs)).1 = none := hn
      simp only [classifyRuleBased, hcv, hm, hbf, h2]
      exact ⟨_, rfl, rfl, rfl, rfl⟩

lemma stle_refl (st : Option ChandaRule × Option Nat × Option Int) : StLE st st :=
  fun d c hd hc => ⟨d, c, hd, hc, Or.inr ⟨rfl, le_refl c⟩⟩

lemma stle_beats {counts : List Int} {st' st : Option ChandaRule × Option Nat × Option Int}
    {r' : ChandaRule} (h : StLE st' st) (hb : BeatsSt counts st r') :
    BeatsSt counts st' r' := by
  obtain ⟨d, c, hd, hc, hor⟩ := hb
  obtain ⟨d', c', hd', hc', hor'⟩ := h d c hd hc
  refine ⟨d', c', hd', hc', ?_⟩
  rcases hor with h1 | ⟨h2, h3⟩ <;> rcases hor' with g1 | ⟨g2, g3⟩
  · left; omega
  · left; omega
  · left; omega
  · right; exact ⟨by omega, by omega⟩

end RuleBasedClassifier

namespace RuleBasedClassifier

lemma matchLoop_go (pc : Int) (counts : List Int) (hne : counts ≠ []) :
    ∀ (l : List ChandaRule) (st : Option ChandaRule × Option Nat × Option Int),
      GoodSt pc counts st →
      ∃ st', matchLoop pc counts st l = .ok st' ∧ GoodSt pc counts st' ∧
        StLE st' st ∧
        (∀ r' ∈ l, isAccepted pc counts r' → BeatsSt counts st' r') ∧
        (∀ r, st'.1 = some r → st.1 = some r ∨ r ∈ l) := by
  intro l
  induction l with
  | nil =>
    intro st hg
    exact ⟨st, rfl, hg, stle_refl st, by simp, fun r h => Or.inl h⟩
  | cons r rest ih =>
    intro st hg
    have hskip : ∀ (hrec : matchLoop pc counts st (r :: rest) = matchLoop pc counts st rest)
        (hnotacc : ¬ isAccepted pc counts r),
        ∃ st', matchLoop pc counts st (r :: rest) = .ok st' ∧ GoodSt pc counts st' ∧
          StLE st' st ∧
          (∀ r' ∈ r :: rest, isAccepted pc counts r' → BeatsSt counts st' r') ∧
          (∀ r0, st'.1 = some r0 → st.1 = some r0 ∨ r0 ∈ r :: rest) := by
      intro hrec hnotacc
      obtain ⟨st', h1, h2, h3, h4, h5⟩ := ih st hg
      refine ⟨st', hrec.trans h1, h2, h3, ?_, ?_⟩
      · intro r' hmem hacc
        rcases List.mem_cons.mp hmem with rfl | hmem'
        · exact absurd hacc hnotacc
        · exact h4 r' hmem' hacc
      · intro r0 h0
        rcases h5 r0 h0 with h | h
        · exact Or.inl h
        · exact Or.inr (List.mem_cons_of_mem _ h)
    cases hrp : r.pada_count with
    | none =>
      refine hskip ?_ ?_
      · simp only [matchLoop, hrp]
      · intro hacc; rw [hacc.1.1] at hrp; exact Option.noConfusion hrp
    | some rp =>
      cases hpat : r.syllable_pattern with
      | none =>
        refine hskip ?_ ?_
        · simp only [matchLoop, hrp, hpat]
        · intro hacc
          obtain ⟨pat, hp, -⟩ := hacc.1.2
          rw [hp] at hpat; exact Option.noConfusion hpat
      | some pat =>
        by_cases hpc : rp = pc
        · by_cases hlen : pat.length = counts.length
          · have hlenne : ¬ counts.length = 0 := by
              intro h; exact hne (List.length_eq_zero.mp h)
            by_cases htol : (maxAbsDiff counts pat : Int) > r.max_diff_tolerance.getD 0
            · -- rejected by tolerance
              refine hskip ?_ ?_
              · simp only [matchLoop, hrp, hpat, if_pos hpc, if_pos hlen, if_neg hlenne,
                  if_pos htol]
              · intro hacc
                have hd : ruleDiff counts r = maxAbsDiff counts pat := by
                  simp [ruleDiff, hpat]
                have := hacc.2
                rw [hd] at this
                simp only [ruleTol] at this
                omega
            · -- accepted: the state may or may not be replaced
              have hd : ruleDiff counts r = maxAbsDiff counts pat := by
                simp [ruleDiff, hpat]
              have hacc : isAccepted pc counts r := by
                refine ⟨⟨by rw [hrp, hpc], pat, hpat, hlen⟩, ?_⟩
                rw [hd]; simp only [ruleTol]; omega
              rcases hg with hgnone | ⟨rb, haccb, hgst⟩
              · -- state was empty: take r
                subst hgnone
                have hst2 : GoodSt pc counts
                    (some r, some (maxAbsDiff counts pat), some (r.count.getD 0)) :=
                  Or.inr ⟨r, hacc, by rw [hd]; rfl⟩
                obtain ⟨st', h1, h2, h3, h4, h5⟩ := ih _ hst2
                refine ⟨st', ?_, h2, ?_, ?_, ?_⟩
                · rw [← h1]
                  simp only [matchLoop, hrp, hpat, if_pos hpc, if_pos hlen, if_neg hlenne,
                    if_neg htol]
                · intro d c hd' hc'; exact Option.noConfusion hd'
                · intro r' hmem hacc'
                  rcases List.mem_cons.mp hmem with rfl | hmem'
                  · refine stle_beats h3 ?_
                    exact ⟨maxAbsDiff counts pat, r'.count.getD 0, rfl, rfl,
                      Or.inr ⟨by rw [hd], le_refl _⟩⟩
                  · exact h4 r' hmem' hacc'
                · intro r0 h0
                  rcases h5 r0 h0 with h | h
                  · exact Or.inr (List.mem_cons.mpr (Or.inl (Option.some.inj h).symm))
                  · exact Or.inr (List.mem_cons_of_mem _ h)
              · -- state held rb
                subst hgst
                by_cases hupd : maxAbsDiff counts pat < ruleDiff counts rb ∨
                    (maxAbsDiff counts pat = ruleDiff counts rb ∧
                     r.count.getD 0 > (some (ruleSupport rb)).getD 0)
                · -- replace with r
                  have hst2 : GoodSt pc counts
                      (some r, some (maxAbsDiff counts pat), some (r.count.getD 0)) :=
                    Or.inr ⟨r, hacc, by rw [hd]; rfl⟩
                  obtain ⟨st', h1, h2, h3, h4, h5⟩ := ih _ hst2
                  refine ⟨st', ?_, h2, ?_, ?_, ?_⟩
                  · rw [← h1]
                    simp only [matchLoop, hrp, hpat, if_pos hpc, if_pos hlen, if_neg hlenne,
                      if_neg htol, if_pos hupd]
                  · -- StLE st' (some rb, ...)
                    intro d c hd' hc'
                    obtain rfl : ruleDiff counts rb = d := Option.some.inj hd'
                    obtain rfl : ruleSupport rb = c := Option.some.inj hc'
                    have h3' := h3 (maxAbsDiff counts pat) (r.count.getD 0) rfl rfl
                    obtain ⟨d', c', hd2, hc2, hor⟩ := h3'
                    refine ⟨d', c', hd2, hc2, ?_⟩
                    simp only [Option.getD_some] at hupd
                    rcases hupd with hu | ⟨hu1, hu2⟩ <;> rcases hor with g | ⟨g1, g2⟩
                    · left; omega
                    · left; omega
                    · left; omega
                    · right; exact ⟨by omega, by omega⟩
                  · intro r' hmem hacc'
                    rcases List.mem_cons.mp hmem with rfl | hmem'
                    · refine stle_beats h3 ?_
                      exact ⟨maxAbsDiff counts pat, r'.count.getD 0, rfl, rfl,
                        Or.inr ⟨by rw [hd], le_refl _⟩⟩
                    · exact h4 r' hmem' hacc'
                  · intro r0 h0
                    rcases h5 r0 h0 with h | h
                    · exact Or.inr (List.mem_cons.mpr (Or.inl (Option.some.inj h).symm))
                    · exact Or.inr (List.mem_cons_of_mem _ h)
                · -- keep rb
                  have hst2 : GoodSt pc counts
                      (some rb, some (ruleDiff counts rb), some (ruleSupport rb)) :=
                    Or.inr ⟨rb, haccb, rfl⟩
                  obtain ⟨st', h1, h2, h3, h4, h5⟩ := ih _ hst2
                  refine ⟨st', ?_, h2, h3, ?_, ?_⟩
                  · rw [← h1]
                    simp only [matchLoop, hrp, hpat, if_pos hpc, if_pos hlen, if_neg hlenne,
                      if_neg htol, if_neg hupd]
                  · intro r' hmem hacc'
                    rcases List.mem_cons.mp hmem with rfl | hmem'
                    · -- the kept state beats r'
                      refine stle_beats h3 ?_
                      simp only [Option.getD_some] at hupd
                      push_neg at hupd
                      refine ⟨ruleDiff counts rb, ruleSupport rb, rfl, rfl, ?_⟩
                      rw [hd]
                      rcases Nat.lt_or_ge (ruleDiff counts rb) (maxAbsDiff counts pat) with h | h
                      · left; exact h
                      · have h1' := hupd.1
                        have heq : ruleDiff counts rb = maxAbsDiff counts pat := by omega
                        right
                        refine ⟨heq, ?_⟩
                        have h6 := hupd.2 heq.symm
                        simp only [ruleSupport] at h6 ⊢
                        omega
                    · exact h4 r' hmem' hacc'
                  · intro r0 h0
                    rcases h5 r0 h0 with h | h
                    · exact Or.inl h
                    · exact Or.inr (List.mem_cons_of_mem _ h)
          · refine hskip ?_ ?_
            · simp only [matchLoop, hrp, hpat, if_pos hpc, if_neg hlen]
            · intro hacc
              obtain ⟨pat', hp, hlen'⟩ := hacc.1.2
              rw [hpat] at hp
              obtain rfl : pat = pat' := Option.some.inj hp
              exact hlen hlen'
        · refine hskip ?_ ?_
          · simp only [matchLoop, hrp, hpat, if_neg hpc]
          · intro hacc
            have := hacc.1.1
            rw [hrp] at this
            exact hpc (Option.some.inj this)

lemma minDistList_eq_none (first : Int) (l : List (String × Int)) :
    minDistList first l = none ↔ l = [] := by
  cases l <;> simp [minDistList]

lemma minDistList_le (first : Int) :
    ∀ (l : List (String × Int)) (m : Nat), minDistList first l = some m →
      ∀ p ∈ l, m ≤ distOf first p := by
  intro l
  induction l with
  | nil => intro m h; simp [minDistList] at h
  | cons q rest ih =>
    intro m h p hp
    simp only [minDistList] at h
    cases hrec : minDistList first rest with
    | none =>
      rw [hrec] at h
      obtain rfl : rest = [] := (minDistList_eq_none first rest).mp hrec
      simp only [List.mem_singleton] at hp
      subst hp
      have : distOf first p = m := by injection h
      omega
    | some mr =>
      rw [hrec] at h
      have hm : min (distOf first q) mr = m := by injection h
      rcases List.mem_cons.mp hp with rfl | hp'
      · omega
      · have := ih mr hrec p hp'
        omega

lemma chooseLoop_keep (first : Int) :
    ∀ (l : List (String × Int)) (f0 : String) (d0 : Nat),
      (∀ p ∈ l, d0 ≤ distOf first p) →
      chooseLoop first (some f0, some d0) l = (some f0, some d0) := by
  intro l
  induction l with
  | nil => intro f0 d0 h; rfl
  | cons p rest ih =>
    intro f0 d0 h
    have hp := h p (List.mem_cons_self p rest)
    simp only [chooseLoop]
    rw [if_neg (by simp only [distOf] at hp; omega)]
    exact ih f0 d0 (fun q hq => h q (List.mem_cons_of_mem _ hq))

lemma chooseLoop_improve (first : Int) :
    ∀ (l : List (String × Int)) (f0 : String) (d0 m : Nat),
      minDistList first l = some m → m < d0 →
      ∃ f t, chooseLoop first (some f0, some d0) l = (some f, some m) ∧
        l.find? (fun p => distOf first p == m) = some (f, t) := by
  intro l
  induction l with
  | nil => intro f0 d0 m h; simp [minDistList] at h
  | cons p rest ih =>
    intro f0 d0 m h hlt
    simp only [minDistList] at h
    cases hrec : minDistList first rest with
    | none =>
      rw [hrec] at h
      obtain rfl : rest = [] := (minDistList_eq_none first rest).mp hrec
      have hm : distOf first p = m := by injection h
      refine ⟨p.1, p.2, ?_, ?_⟩
      · simp only [chooseLoop]
        rw [if_pos (show (first - p.2).natAbs < d0 from by
          simp only [distOf] at hm; omega)]
        simp only [distOf] at hm
        rw [hm]
      · rw [List.find?_cons_of_pos _ (by simp [hm])]
    | some mr =>
      rw [hrec] at h
      have hm : min (distOf first p) mr = m := by injection h
      by_cases hdm : distOf first p ≤ mr
      · -- the head attains the minimum
        have hm2 : distOf first p = m := by omega
        refine ⟨p.1, p.2, ?_, ?_⟩
        · simp only [chooseLoop]
          rw [if_pos (show (first - p.2).natAbs < d0 from by
            simp only [distOf] at hm2; omega)]
          have hkeep := chooseLoop_keep first rest p.1 (distOf first p)
            (fun q hq => le_trans hdm (minDistList_le first rest mr hrec q hq))
          simp only [distOf] at hkeep hm2
          rw [hkeep, hm2]
        · rw [List.find?_cons_of_pos _ (by simp [hm2])]
      · -- the minimum is attained strictly later
        have hm2 : mr = m := by omega
        subst hm2
        have hplarge : ¬ (distOf first p = mr) := by omega
        by_cases hdd : distOf first p < d0
        · obtain ⟨f, t, hcl, hfind⟩ := ih p.1 (distOf first p) mr hrec (by omega)
          refine ⟨f, t, ?_, ?_⟩
          · simp only [chooseLoop]
            rw [if_pos (show (first - p.2).natAbs < d0 from by
              simp only [distOf] at hdd; omega)]
            simp only [distOf] at hcl
            exact hcl
          · rw [List.find?_cons_of_neg _ (by simp [hplarge])]
            exact hfind
        · obtain ⟨f, t, hcl, hfind⟩ := ih f0 d0 mr hrec hlt
          refine ⟨f, t, ?_, ?_⟩
          · simp only [chooseLoop]
            rw [if_neg (show ¬ (first - p.2).natAbs < d0 from by
              simp only [distOf] at hdd; omega)]
            exact hcl
          · rw [List.find?_cons_of_neg _ (by simp [hplarge])]
            exact hfind


end RuleBasedClassifier

namespace PadaSandhi

lemma collapse_no_bar : ∀ (t : List Char), '|' ∉ t → collapseDouble t = t := by
  intro t
  induction t with
  | nil => intro h; rfl
  | cons c rest ih =>
    intro h
    have hc : c ≠ '|' := fun hcc => h (hcc ▸ List.mem_cons_self c rest)
    have hrest : '|' ∉ rest := fun hm => h (List.mem_cons_of_mem _ hm)
    cases rest with
    | nil => rfl
    | cons c2 rest2 =>
      simp only [collapseDouble]
      rw [if_neg (fun hand => hc hand.1)]
      rw [ih hrest]

lemma split_no_sep (sep : Char) : ∀ (t : List Char), sep ∉ t →
    PyCompat.splitOnChar sep t = [t] := by
  intro t
  induction t with
  | nil => intro h; rfl
  | cons c rest ih =>
    intro h
    have hc : c ≠ sep := fun hcc => h (hcc ▸ List.mem_cons_self c rest)
    have hrest : sep ∉ rest := fun hm => h (List.mem_cons_of_mem _ hm)
    show PyCompat.splitOnChar sep (c :: rest) = [c :: rest]
    have hr := ih hrest
    simp only [PyCompat.splitOnChar, List.foldr_cons] at hr ⊢
    rw [hr, if_neg hc]

lemma pyStrip_head (cs : List Char) (h : Char) (tl : List Char)
    (hstrip : PyCompat.pyStrip cs = h :: tl) : PyCompat.pyIsSpace h = false := by
  have hrd : PyCompat.pyStrip cs =
      List.rdropWhile PyCompat.pyIsSpace (cs.dropWhile PyCompat.pyIsSpace) := rfl
  obtain ⟨suf, hsuf⟩ :=
    List.rdropWhile_prefix (p := PyCompat.pyIsSpace) (l := cs.dropWhile PyCompat.pyIsSpace)
  rw [← hrd, hstrip] at hsuf
  have hne : cs.dropWhile PyCompat.pyIsSpace ≠ [] := by
    rw [← hsuf]; simp
  have hh : (cs.dropWhile PyCompat.pyIsSpace).head hne = h := by
    have hcons : cs.dropWhile PyCompat.pyIsSpace = h :: (tl ++ suf) := by
      rw [← hsuf]; simp
    simp [hcons]
  have hfalse := List.head_dropWhile_not PyCompat.pyIsSpace cs (w := hne)
  rw [hh] at hfalse
  exact hfalse

lemma pyStrip_all_space (cs : List Char) (h : ∀ c ∈ cs, PyCompat.pyIsSpace c) :
    PyCompat.pyStrip cs = [] := by
  have h1 : cs.dropWhile PyCompat.pyIsSpace = [] := List.dropWhile_eq_nil_iff.mpr h
  show ((cs.dropWhile PyCompat.pyIsSpace).reverse.dropWhile PyCompat.pyIsSpace).reverse = []
  rw [h1]
  rfl

lemma index_enum (chunks : List (List Char)) :
    ((chunks.enum.map
      (fun p => (⟨p.2, p.1, computeSandhiProfile p.2⟩ : Pada))).map Pada.index) =
      List.range chunks.length := by
  rw [List.map_map]
  have hcomp : (Pada.index ∘ fun p : Nat × List Char =>
      (⟨p.2, p.1, computeSandhiProfile p.2⟩ : Pada)) = Prod.fst := rfl
  rw [hcomp, List.enum_map_fst]


end PadaSandhi

namespace Syllabifier

lemma svara_not_special (c : Char) (h : Normalization.isSvara c = true) :
    (PyCompat.pyIsSpace c || c = '|' || c = '।' || c = '॥') = false ∧
    isIndependentVowel c = false ∧ isConsonant c = false ∧
    isDependentVowel c = false ∧ isMark c = false := by
  have hc : c ∈ Normalization.SVARA_MARKS := by
    simpa [Normalization.isSvara] using h
  fin_cases hc <;> decide

lemma svara_step (st : SylState) (c : Char) (h : Normalization.isSvara c = true) :
    step st c = { st with curText := st.curText ++ [c] } := by
  obtain ⟨h1, h2, h3, h4, h5⟩ := svara_not_special c h
  simp [step, h1, h2, h3, h4, h5]

lemma flush_inv (R S : SylState) (h : WeightInv R S) :
    WeightInv (flushCurrent R) (flushCurrent S) := by
  obtain ⟨hA, hV, hC, hT, hE⟩ := h
  by_cases hre : R.curText = [] ∧ R.curVowel = none ∧ R.curCoda = []
  · have hse : S.curText = [] ∧ S.curVowel = none ∧ S.curCoda = [] :=
      ⟨hE.mp hre.1, hV ▸ hre.2.1, hC ▸ hre.2.2⟩
    unfold flushCurrent
    rw [if_pos hre, if_pos hse]
    exact ⟨hA, hV, hC, hT, hE⟩
  · have hse : ¬ (S.curText = [] ∧ S.curVowel = none ∧ S.curCoda = []) := by
      intro hcon
      exact hre ⟨hE.mpr hcon.1, hV ▸ hcon.2.1, hC ▸ hcon.2.2⟩
    unfold flushCurrent
    rw [if_neg hre, if_neg hse]
    refine ⟨?_, rfl, rfl, by simp, Iff.rfl⟩
    simp only [List.map_append, hA, hV, hC, List.map_cons, List.map_nil,
      Akshara.L_or_G]

lemma step_inv (R S : SylState) (c : Char) (hns : Normalization.isSvara c = false)
    (h : WeightInv R S) : WeightInv (step R c) (step S c) := by
  obtain ⟨hA, hV, hC, hT, hE⟩ := h
  by_cases h1 : (PyCompat.pyIsSpace c || c = '|' || c = '।' || c = '॥') = true
  · simp only [step, h1, if_true]
    exact flush_inv R S ⟨hA, hV, hC, hT, hE⟩
  · have h1f : (PyCompat.pyIsSpace c || c = '|' || c = '।' || c = '॥') = false := by
      revert h1; cases PyCompat.pyIsSpace c || c = '|' || c = '।' || c = '॥' <;> simp
    by_cases h2 : isIndependentVowel c = true
    · have hfl := flush_inv R S ⟨hA, hV, hC, hT, hE⟩
      simp only [step, h1f, h2, Bool.false_eq_true, if_false, if_true]
      exact ⟨hfl.1, rfl, rfl, by simp [hns], by simp⟩
    · have h2f : isIndependentVowel c = false := by
        revert h2; cases isIndependentVowel c <;> simp
      by_cases h3 : isConsonant c = true
      · simp only [step, h1f, h2f, h3, Bool.false_eq_true, if_false, if_true]
        by_cases hopen : R.curText = [] ∧ R.curVowel = none
        · have hopen' : S.curText = [] ∧ S.curVowel = none :=
            ⟨hE.mp hopen.1, hV ▸ hopen.2⟩
          rw [if_pos hopen, if_pos hopen']
          exact ⟨hA, rfl, rfl, by simp [hns], by simp⟩
        · have hopen' : ¬ (S.curText = [] ∧ S.curVowel = none) := by
            intro hcon
            exact hopen ⟨hE.mpr hcon.1, hV ▸ hcon.2⟩
          rw [if_neg hopen, if_neg hopen']
          refine ⟨hA, hV, hC, ?_, by simp⟩
          simp [hT, hns, List.filter_append]
      · have h3f : isConsonant c = false := by
          revert h3; cases isConsonant c <;> simp
        by_cases h4 : isDependentVowel c = true
        · simp only [step, h1f, h2f, h3f, h4, Bool.false_eq_true, if_false, if_true]
          by_cases hopen : R.curText = []
          · have hopen' : S.curText = [] := hE.mp hopen
            rw [if_pos hopen, if_pos hopen']
            have hfl := flush_inv R S ⟨hA, hV, hC, hT, hE⟩
            exact ⟨hfl.1, rfl, rfl, by simp [hns], by simp⟩
          · have hopen' : S.curText ≠ [] := fun hcon => hopen (hE.mpr hcon)
            rw [if_neg hopen, if_neg hopen']
            refine ⟨hA, rfl, hC, ?_, by simp⟩
            simp [hT, hns, List.filter_append]
        · have h4f : isDependentVowel c = false := by
            revert h4; cases isDependentVowel c <;> simp
          by_cases h5 : isMark c = true
          · simp only [step, h1f, h2f, h3f, h4f, h5, Bool.false_eq_true, if_false,
              if_true]
            exact ⟨hA, hV, by rw [hC], hT, hE⟩
          · have h5f : isMark c = false := by
              revert h5; cases isMark c <;> simp
            simp only [step, h1f, h2f, h3f, h4f, h5f, Bool.false_eq_true, if_false]
            refine ⟨hA, hV, hC, ?_, by simp⟩
            simp [hT, hns, List.filter_append]

lemma run_inv : ∀ (cs : List Char) (R S : SylState), WeightInv R S →
    svaraSafeAux R cs = true →
    WeightInv (processChars R cs)
      (processChars S (cs.filter (fun c => !(Normalization.isSvara c)))) := by
  intro cs
  induction cs with
  | nil => intro R S h _; exact h
  | cons c rest ih =>
    intro R S h hsafe
    by_cases hsv : Normalization.isSvara c = true
    · have hne : R.curText ≠ [] := by
        intro hcon
        have hempty : R.curText.isEmpty = true := by simp [hcon]
        simp only [svaraSafeAux, hsv, hempty, Bool.and_self, if_true] at hsafe
        exact Bool.noConfusion hsafe
      have hsafe' : svaraSafeAux (step R c) rest = true := by
        have hcond : (Normalization.isSvara c && R.curText.isEmpty) = false := by
          simp [List.isEmpty_iff, hne]
        simp only [svaraSafeAux, hcond, Bool.false_eq_true, if_false] at hsafe
        exact hsafe
      rw [List.filter_cons_of_neg (by simp [hsv])]
      rw [show processChars R (c :: rest) = processChars (step R c) rest from rfl]
      refine ih (step R c) S ?_ hsafe'
      rw [svara_step R c hsv]
      obtain ⟨hA, hV, hC, hT, hE⟩ := h
      refine ⟨hA, hV, hC, ?_, ?_⟩
      · simp [hT, hsv, List.filter_append]
      · exact ⟨fun happ => absurd happ (by simp), fun hS => absurd (hE.mpr hS) hne⟩
    · have hsvf : Normalization.isSvara c = false := by
        revert hsv; cases Normalization.isSvara c <;> simp
      have hsafe' : svaraSafeAux (step R c) rest = true := by
        simp only [svaraSafeAux, hsvf, Bool.false_and, Bool.false_eq_true, if_false]
          at hsafe
        exact hsafe
      rw [List.filter_cons_of_pos (by simp [hsvf])]
      rw [show processChars R (c :: rest) = processChars (step R c) rest from rfl]
      rw [show processChars S (c :: rest.filter (fun c => !(Normalization.isSvara c))) =
        processChars (step S c) (rest.filter (fun c => !(Normalization.isSvara c)))
        from rfl]
      exact ih (step R c) (step S c) (step_inv R S c hsvf ⟨h.1, h.2.1, h.2.2.1, h.2.2.2.1, h.2.2.2.2⟩) hsafe'


end Syllabifier

open RuleBasedClassifier in
/-- Claim C1: Layer-1 rule lookup.  For every observed pada count, non-empty
syllable-count list and rule table: a returned winner is a member of the
table, is a candidate (equal `pada_count`, canonical pattern of the observed
length) accepted within its tolerance, and beats every other accepted
candidate on smallest max-abs-diff with ties broken by largest support; a
`none` outcome means every candidate exceeds its tolerance, and it cannot
occur while an accepted candidate exists.  In particular a rule with pattern
[8,8,8,8] and tolerance 1 accepts observed [8,9,8,8] and rejects
[8,10,8,8]. -/
theorem claim_C1 (pc : Int) (counts : List Int) (rules : List ChandaRule)
    (hne : counts ≠ []) :
    (∀ r ns, matchChandaRule pc counts rules = Except.ok (some r, ns) →
       r ∈ rules ∧ isAccepted pc counts r ∧
       ∀ r' ∈ rules, isAccepted pc counts r' →
         (ruleDiff counts r < ruleDiff counts r' ∨
          (ruleDiff counts r = ruleDiff counts r' ∧
           ruleSupport r' ≤ ruleSupport r))) ∧
    (∀ ns, matchChandaRule pc counts rules = Except.ok (none, ns) →
       ∀ r' ∈ rules, isCandidate pc counts r' →
         (ruleDiff counts r' : Int) > ruleTol r') ∧
    ((∃ r' ∈ rules, isAccepted pc counts r') →
       ∀ ns, matchChandaRule pc counts rules ≠ Except.ok (none, ns)) ∧
    (matchChandaRule 4 [8, 9, 8, 8] [anushtubhRule] =
       Except.ok (some anushtubhRule,
         [Note.tryingMatch 4 [8, 9, 8, 8] 1,
          Note.matchedRule "anushtubh" [8, 8, 8, 8] 1 5 1])) ∧
    (matchChandaRule 4 [8, 10, 8, 8] [anushtubhRule] =
       Except.ok (none, [Note.tryingMatch 4 [8, 10, 8, 8] 1, Note.noRuleMatched])) := by
  by_cases hrules : rules = []
  · subst hrules
    refine ⟨?_, ?_, ?_, rfl, rfl⟩
    · intro r ns h; simp [matchChandaRule] at h
    · intro ns h r' hr'; simp at hr'
    · rintro ⟨r', hr', -⟩ ns; simp at hr'
  · obtain ⟨st', hloop, hgood, -, hbeats, hmem⟩ :=
      matchLoop_go pc counts hne rules (none, none, none) (Or.inl rfl)
    rcases hgood with hstn | ⟨rb, haccb, hstb⟩
    · subst hstn
      have hmc : matchChandaRule pc counts rules =
          Except.ok (none, [Note.tryingMatch pc counts rules.length, Note.noRuleMatched]) := by
        simp only [matchChandaRule, if_neg hrules, hloop]
      have hnoacc : ∀ r' ∈ rules, ¬ isAccepted pc counts r' := by
        intro r' hr' hacc
        obtain ⟨d, c, hd, -, -⟩ := hbeats r' hr' hacc
        exact Option.noConfusion hd
      refine ⟨?_, ?_, ?_, rfl, rfl⟩
      · intro r ns h
        rw [hmc] at h
        simp at h
      · intro ns h r' hr' hcand
        by_contra hle
        push_neg at hle
        exact hnoacc r' hr' ⟨hcand, hle⟩
      · rintro ⟨r', hr', hacc⟩ ns heq
        exact hnoacc r' hr' hacc
    · subst hstb
      have hout : (matchChandaRule pc counts rules = Except.error PyErr.keyError) ∨
          (∃ ns, matchChandaRule pc counts rules = Except.ok (some rb, ns)) := by
        simp only [matchChandaRule, if_neg hrules, hloop]
        cases rb.label <;> cases rb.syllable_pattern <;>
          cases rb.max_diff_tolerance <;> cases rb.count <;>
          first
            | (left; rfl)
            | (right; exact ⟨_, rfl⟩)
      have hrbmem : rb ∈ rules := by
        rcases hmem rb rfl with h | h
        · exact absurd h (by simp)
        · exact h
      have hprops : ∀ r' ∈ rules, isAccepted pc counts r' →
          (ruleDiff counts rb < ruleDiff counts r' ∨
           (ruleDiff counts rb = ruleDiff counts r' ∧
            ruleSupport r' ≤ ruleSupport rb)) := by
        intro r' hr' hacc'
        obtain ⟨d, c, hd, hc, hor⟩ := hbeats r' hr' hacc'
        obtain rfl : ruleDiff counts rb = d := Option.some.inj hd
        obtain rfl : ruleSupport rb = c := Option.some.inj hc
        exact hor
      rcases hout with herr | ⟨ns0, hok0⟩
      · refine ⟨?_, ?_, ?_, rfl, rfl⟩
        · intro r ns h; rw [herr] at h; exact Except.noConfusion h
        · intro ns h; rw [herr] at h; exact Except.noConfusion h
        · rintro - ns heq; rw [herr] at heq; exact Except.noConfusion heq
      · refine ⟨?_, ?_, ?_, rfl, rfl⟩
        · intro r ns h
          rw [hok0] at h
          have hpair := Except.ok.inj h
          have hfst : some rb = some r := congrArg Prod.fst hpair
          obtain rfl : rb = r := Option.some.inj hfst
          exact ⟨hrbmem, haccb, hprops⟩
        · intro ns h
          rw [hok0] at h
          have hpair := Except.ok.inj h
          have hfst : (some rb : Option ChandaRule) = none := congrArg Prod.fst hpair
          exact Option.noConfusion hfst
        · rintro - ns heq
          rw [hok0] at heq
          have hpair := Except.ok.inj heq
          have hfst : (some rb : Option ChandaRule) = none := congrArg Prod.fst hpair
          exact Option.noConfusion hfst

open RuleBasedClassifier in
theorem claim_C1_witness :
  ([8, 9, 8, 8] : List Int) ≠ [] ∧ anushtubhRule ∈ [anushtubhRule] ∧
    isAccepted 4 [8, 9, 8, 8] anushtubhRule := by
  have h := claim_C1 4 [8, 9, 8, 8] [anushtubhRule] (by decide)
  have h2 := h.1 anushtubhRule _ h.2.2.2.1
  exact ⟨by decide, h2.1, h2.2.1⟩

open RuleBasedClassifier in
/-- Claim C2: Layer-2 canonical-family fallback, exact table.  Whenever
Layer 1 yields no base family (no matched rule, or a matched rule whose
`base_family` is absent) and the non-empty count list is constant, the
classifier returns the family fixed by (pada_count, common count): (3,8)
gayatri, (4,8) anushtubh, (5,8) pankti, (4,11) trishtubh, (4,12) jagati,
(4,9) brihati, and (p,7) for 2 <= p <= 4 ushnih; in particular
classify(4, "8,8,8,8") yields base family anushtubh, deviation 0 and no
deviation label. -/
theorem claim_C2 (pc : Int) (s veda : String) (rules : List ChandaRule)
    (n : Int) (rest : List Int) (ro : Option ChandaRule) (rn : List Note)
    (fam : String)
    (hparse : parseCounts s = n :: rest)
    (hall : (n :: rest).all (fun c => c = n) = true)
    (hm : matchChandaRule pc (parseCounts s) rules = Except.ok (ro, rn))
    (hro : ro = none ∨ ∃ r, ro = some r ∧ r.base_family = none)
    (hcombo : exactCombo pc n = some fam) :
    (∃ res, classifyRuleBased pc s veda rules = Except.ok res ∧
       res.base_family = some fam) ∧
    exactCombo 3 8 = some "gayatri" ∧
    exactCombo 4 8 = some "anushtubh" ∧
    exactCombo 5 8 = some "pankti" ∧
    exactCombo 4 11 = some "trishtubh" ∧
    exactCombo 4 12 = some "jagati" ∧
    exactCombo 4 9 = some "brihati" ∧
    (∀ p : Int, 2 ≤ p → p ≤ 4 → exactCombo p 7 = some "ushnih") ∧
    (∃ res, classifyRuleBased 4 "8,8,8,8" "unknown" [] = Except.ok res ∧
       res.base_family = some "anushtubh" ∧ res.deviation_D = some 0 ∧
       res.deviation_label = none) := by
  refine ⟨?_, rfl, rfl, rfl, rfl, rfl, rfl, ?_, ⟨_, rfl, rfl, rfl, rfl⟩⟩
  · have hbf : ro.bind (fun r => r.base_family) = none := by
      rcases hro with rfl | ⟨r, rfl, hb⟩
      · rfl
      · simp [hb]
    have hch := choose_exact pc n rest fam hall hcombo
    have hf : (match ro.bind (fun r => r.base_family) with
               | some g => some g
               | none => (chooseBaseFamilyPingala pc (n :: rest)).1) = some fam := by
      rw [hbf, hch]
    obtain ⟨res, hres, hbfam, -, -⟩ :=
      classify_ok_of_family pc s veda rules ro rn fam n rest hm hparse hf
    exact ⟨res, hres, hbfam⟩
  · intro p h2 h4
    simp only [exactCombo]
    split_ifs with h1 h2a h3a h4a h5a h6a h7a
    · exact absurd h1.2 (by decide)
    · exact absurd h2a.2 (by decide)
    · exact absurd h3a.2 (by decide)
    · exact absurd h4a.2 (by decide)
    · exact absurd h5a.2 (by decide)
    · exact absurd h6a.2 (by decide)
    · rfl
    · exact absurd ⟨h2, h4, trivial⟩ h7a

open RuleBasedClassifier in
theorem claim_C2_witness :
  ∃ res, classifyRuleBased 3 "8,8,8" "unknown" [] = Except.ok res ∧
    res.base_family = some "gayatri" := by
  have h := claim_C2 3 "8,8,8" "unknown" [] 8 [8, 8] none [Note.noRulesLoaded]
    "gayatri" rfl (by decide) rfl (Or.inl rfl) rfl
  exact h.1

open RuleBasedClassifier in
/-- Claim C3: deviation computation.  For every classification that returned
normally with a base family whose target is known and a non-empty parsed
count list, `deviation_D` equals the first count minus the target, and the
deviation label follows the fixed thresholds (-1 nichrid, +1 bhurik,
+2 viraj, at least +3 svaraj, otherwise no label, covering 0 and at most
-2); and the chanda-label parser's inference function computes the same
D-to-label mapping. -/
theorem claim_C3 (pc : Int) (s veda : String) (rules : List ChandaRule)
    (res : RuleBasedResult) (f : String) (t c0 : Int) (cs : List Int)
    (hok : classifyRuleBased pc s veda rules = Except.ok res)
    (hbf : res.base_family = some f)
    (ht : BASE_METER_SYLLABLES.lookup f = some t)
    (hc : parseCounts s = c0 :: cs) :
    res.deviation_D = some (c0 - t) ∧
    (c0 - t = -1 → res.deviation_label = some "nichrid") ∧
    (c0 - t = 1 → res.deviation_label = some "bhurik") ∧
    (c0 - t = 2 → res.deviation_label = some "viraj") ∧
    (3 ≤ c0 - t → res.deviation_label = some "svaraj") ∧
    (c0 - t = 0 ∨ c0 - t ≤ -2 → res.deviation_label = none) ∧
    (∀ D : Int, ChandaParser.inferDeviationLabelFromD D = inferDeviationLabel D) := by
  cases hmv : matchChandaRule pc (parseCounts s) rules with
  | error e =>
    rw [classify_error pc s veda rules e hmv] at hok
    exact absurd hok (by simp)
  | ok pr =>
    obtain ⟨ro, rn⟩ := pr
    cases hfo : (match ro.bind (fun r => r.base_family) with
                 | some g => some g
                 | none => (chooseBaseFamilyPingala pc (c0 :: cs)).1) with
    | none =>
      obtain ⟨res', hres', hb', -, -⟩ :=
        classify_ok_of_no_family pc s veda rules ro rn hmv (Or.inl (by rw [hc]; exact hfo))
      rw [hok] at hres'
      obtain rfl : res = res' := Except.ok.inj hres'
      rw [hbf] at hb'
      exact absurd hb' (by simp)
    | some g =>
      obtain ⟨res', hres', hb', hD, hL⟩ :=
        classify_ok_of_family pc s veda rules ro rn g c0 cs hmv hc hfo
      rw [hok] at hres'
      obtain rfl : res = res' := Except.ok.inj hres'
      rw [hbf] at hb'
      obtain rfl : f = g := Option.some.inj hb'
      rw [ht] at hD hL
      simp only [Option.map_some', Option.some_bind] at hD hL
      refine ⟨hD, ?_, ?_, ?_, ?_, ?_, fun D => rfl⟩
      · intro hval; rw [hL, inferDeviationLabel, if_pos hval]
      · intro hval
        rw [hL, inferDeviationLabel, if_neg (by omega), if_pos hval]
      · intro hval
        rw [hL, inferDeviationLabel, if_neg (by omega), if_neg (by omega), if_pos hval]
      · intro hval
        rw [hL, inferDeviationLabel, if_neg (by omega), if_neg (by omega),
          if_neg (by omega), if_pos (by omega)]
      · intro hval
        rw [hL, inferDeviationLabel, if_neg (by omega), if_neg (by omega),
          if_neg (by omega), if_neg (by omega)]

open RuleBasedClassifier in
theorem claim_C3_witness :
  ∃ res, classifyRuleBased 4 "10,10,10,10" "unknown" [] = Except.ok res ∧
    res.deviation_D = some (10 - 9) ∧ res.deviation_label = some "bhurik" := by
  have h := claim_C3 4 "10,10,10,10" "unknown" [] _ "brihati" 9 10 [10, 10, 10]
    rfl rfl rfl rfl
  exact ⟨_, rfl, h.1, h.2.2.1 rfl⟩

/-- Claim C4, counterexample: at first pada count 10 the families brihati
(target 9) and trishtubh (target 11) are equidistant and the code selects
brihati, the one occurring earlier in the mapping's insertion order: the tie
is broken by the table's insertion/iteration order, not by an ordering
independent of it as the claim asserts. -/
theorem claim_C4_cx :
  (RuleBasedClassifier.chooseBaseFamilyPingala 4 [10, 10, 10, 10]).1 = some "brihati" ∧
  RuleBasedClassifier.distOf 10 ("brihati", 9) =
    RuleBasedClassifier.distOf 10 ("trishtubh", 11) ∧
  RuleBasedClassifier.BASE_METER_SYLLABLES.indexOf ("brihati", (9 : Int)) <
    RuleBasedClassifier.BASE_METER_SYLLABLES.indexOf ("trishtubh", (11 : Int)) :=
  ⟨rfl, by decide, by decide⟩

open RuleBasedClassifier in
/-- Claim C4 (amended): when no exact canonical combination matches
(including every non-uniform case), the classifier picks the canonical
family whose fixed target syllable count is numerically closest to the
first pada's syllable count, and an equidistant tie is resolved in favour
of the family occurring first in the source mapping's fixed insertion order
(gayatri, ushnih, anushtubh, brihati, pankti, trishtubh, jagati), i.e. by
the mapping's iteration order, which the embedding renders as a fixed
list. -/
theorem claim_C4 (pc first : Int) (rest : List Int)
    (hfall : (first :: rest).all (fun c => c = first) = false ∨
             exactCombo pc first = none) :
    (chooseBaseFamilyPingala pc (first :: rest)).1 = closestFamilySpec first ∧
    (∃ fam t, closestFamilySpec first = some fam ∧
       (fam, t) ∈ BASE_METER_SYLLABLES ∧
       ∀ p ∈ BASE_METER_SYLLABLES, distOf first (fam, t) ≤ distOf first p) := by
  have hsc : (if (first :: rest).all (fun c => c = first) then exactCombo pc first
              else none) = none := by
    rcases hfall with h | h
    · simp [h]
    · by_cases hall : (first :: rest).all (fun c => c = first) <;> simp [hall, h]
  have hstep : chooseLoop first (none, none) BASE_METER_SYLLABLES =
      chooseLoop first (some "gayatri", some (distOf first ("gayatri", (8 : Int))))
        (BASE_METER_SYLLABLES.tail) := rfl
  have htne : BASE_METER_SYLLABLES.tail ≠ [] := by simp [BASE_METER_SYLLABLES]
  cases hmr : minDistList first (BASE_METER_SYLLABLES.tail) with
  | none => exact absurd ((minDistList_eq_none first _).mp hmr) htne
  | some mr =>
    by_cases hcase : distOf first ("gayatri", (8 : Int)) ≤ mr
    · -- gayatri (the first entry) is kept throughout
      have hkeep := chooseLoop_keep first (BASE_METER_SYLLABLES.tail) "gayatri"
        (distOf first ("gayatri", (8 : Int)))
        (fun q hq => le_trans hcase (minDistList_le first _ mr hmr q hq))
      have hfull : minDistList first BASE_METER_SYLLABLES =
          some (distOf first ("gayatri", (8 : Int))) := by
        have h0 : minDistList first BASE_METER_SYLLABLES =
            some (match minDistList first (BASE_METER_SYLLABLES.tail) with
                  | none => distOf first ("gayatri", (8 : Int))
                  | some m => min (distOf first ("gayatri", (8 : Int))) m) := rfl
        rw [h0, hmr]
        simp [Nat.min_eq_left hcase]
      have hfind : BASE_METER_SYLLABLES.find?
          (fun p => distOf first p == distOf first ("gayatri", (8 : Int))) =
          some ("gayatri", (8 : Int)) := by
        rw [show BASE_METER_SYLLABLES =
          ("gayatri", (8 : Int)) :: BASE_METER_SYLLABLES.tail from rfl]
        rw [List.find?_cons_of_pos _ (by simp)]
      constructor
      · simp only [chooseBaseFamilyPingala, hsc]
        rw [hstep, hkeep]
        simp [closestFamilySpec, hfull, hfind]
      · refine ⟨"gayatri", 8, ?_, ?_, ?_⟩
        · simp [closestFamilySpec, hfull, hfind]
        · simp [BASE_METER_SYLLABLES]
        · intro p hp
          rw [show BASE_METER_SYLLABLES =
            ("gayatri", (8 : Int)) :: BASE_METER_SYLLABLES.tail from rfl] at hp
          rcases List.mem_cons.mp hp with rfl | hp'
          · exact le_refl _
          · exact le_trans hcase (minDistList_le first _ mr hmr p hp')
    · -- the minimum lies strictly inside the tail
      push_neg at hcase
      obtain ⟨f, t, hcl, hfind⟩ := chooseLoop_improve first (BASE_METER_SYLLABLES.tail)
        "gayatri" (distOf first ("gayatri", (8 : Int))) mr hmr hcase
      have hfull : minDistList first BASE_METER_SYLLABLES = some mr := by
        have h0 : minDistList first BASE_METER_SYLLABLES =
            some (match minDistList first (BASE_METER_SYLLABLES.tail) with
                  | none => distOf first ("gayatri", (8 : Int))
                  | some m => min (distOf first ("gayatri", (8 : Int))) m) := rfl
        rw [h0, hmr]
        simp [Nat.min_eq_right (le_of_lt hcase)]
      have hgne : ¬ (distOf first ("gayatri", (8 : Int)) = mr) := by omega
      have hfind2 : BASE_METER_SYLLABLES.find? (fun p => distOf first p == mr) =
          some (f, t) := by
        rw [show BASE_METER_SYLLABLES =
          ("gayatri", (8 : Int)) :: BASE_METER_SYLLABLES.tail from rfl]
        rw [List.find?_cons_of_neg _ (by simp [hgne])]
        exact hfind
      have hft : distOf first (f, t) = mr := by
        have := List.find?_some hfind2
        simpa using this
      constructor
      · simp only [chooseBaseFamilyPingala, hsc]
        rw [hstep, hcl]
        simp [closestFamilySpec, hfull, hfind2]
      · refine ⟨f, t, ?_, ?_, ?_⟩
        · simp [closestFamilySpec, hfull, hfind2]
        · exact List.mem_of_find?_eq_some hfind2
        · intro p hp
          rw [hft]
          rw [show BASE_METER_SYLLABLES =
            ("gayatri", (8 : Int)) :: BASE_METER_SYLLABLES.tail from rfl] at hp
          rcases List.mem_cons.mp hp with rfl | hp'
          · exact le_of_lt hcase
          · exact minDistList_le first _ mr hmr p hp'

open RuleBasedClassifier in
theorem claim_C4_witness :
  (chooseBaseFamilyPingala 4 [10, 10, 10, 10]).1 = closestFamilySpec 10 ∧
    closestFamilySpec 10 = some "brihati" := by
  have h := claim_C4 4 10 [10, 10, 10] (Or.inr (by decide))
  exact ⟨h.1, by decide⟩

/-- Claim C5, evaluation at the failing input: on the pada "अक" the
consonant क read after the open syllable अ is appended to the syllable's
text buffer, not its coda, so the closed syllable has an empty coda and is
flushed light with reason short_open — contradicting the claim that a
syllable closed by consonants is heavy with reason coda_cluster. -/
theorem claim_C5 :
  (Syllabifier.syllabifyLine "अक").1 =
    [⟨['अ', 'क'], 'अ', [], 1, 1, "short_open"⟩] ∧
  (Syllabifier.syllabifyLine "अक").2.1 = "L" := ⟨rfl, rfl⟩

/-- Claim C6, evaluation at the failing input: on the pada "कंत" the
anusvara is buffered as coda and emitted after the later consonant त, so
the concatenation of the syllable text spans is "कतं", a reordering of the
input "कंत" — contradicting the lossless-reconstruction invariant. -/
theorem claim_C6 :
  ((Syllabifier.syllabifyLine "कंत").1.map Syllabifier.Akshara.text).flatten =
    ['क', 'त', 'ं'] ∧
  "कंत".toList.filter (fun c => !(Syllabifier.isBoundary c)) = ['क', 'ं', 'त'] ∧
  (['क', 'त', 'ं'] : List Char) ≠ ['क', 'ं', 'त'] := ⟨rfl, rfl, by decide⟩

/-- Claim C7, evaluation at the failing input: with an empty syllable-count
string and a rule table holding a record with matching pada_count and an
empty canonical pattern, the classifier evaluates `max()` over an empty
sequence and raises ValueError instead of returning an unclassified
result. -/
theorem claim_C7 :
  RuleBasedClassifier.classifyRuleBased 4 "" "unknown"
      [⟨none, some 4, some [], none, none, none⟩] =
    Except.error RuleBasedClassifier.PyErr.valueError ∧
  RuleBasedClassifier.parseCounts "" = [] := ⟨rfl, rfl⟩

/-- Claim C8, counterexample: a svara mark read with no open syllable opens
one through the defensive fallback, so the lone svara mark "॑" yields the
weight sequence "L" while the same text with svara marks removed yields the
empty weight sequence — the two runs differ, refuting the claim for every
input text. -/
theorem claim_C8_cx :
  (Syllabifier.syllabifyLine "॑").2.1 = "L" ∧
  Normalization.strip_svara_marks "॑" = "" ∧
  (Syllabifier.syllabifyLine "").2.1 = "" ∧
  ("L" : String) ≠ "" := ⟨rfl, rfl, rfl, by decide⟩

open Syllabifier in
/-- Claim C8 (amended): the weight (L/G) sequence produced by syllabification
is identical for a text and for the same text with every svara accent mark
removed, provided each svara mark is read while a syllable is open (the
svara-safe condition); weight depends only on nucleus vowel length and coda
emptiness, which the marks never touch. -/
theorem claim_C8 (t : String) (hsafe : svaraSafe t = true) :
    (syllabifyLine t).2.1 =
      (syllabifyLine (Normalization.strip_svara_marks t)).2.1 := by
  have hinit : WeightInv initState initState := ⟨rfl, rfl, rfl, rfl, Iff.rfl⟩
  have hrun := run_inv t.toList initState initState hinit hsafe
  have hfl := flush_inv _ _ hrun
  have hlist : (Normalization.strip_svara_marks t).toList =
      t.toList.filter (fun c => !(Normalization.isSvara c)) := rfl
  show String.mk ((flushCurrent (processChars initState t.toList)).aksharas.map
      Akshara.L_or_G) =
    String.mk ((flushCurrent (processChars initState
      (Normalization.strip_svara_marks t).toList)).aksharas.map Akshara.L_or_G)
  rw [hlist]
  exact congrArg String.mk hfl.1

open Syllabifier in
theorem claim_C8_witness :
  svaraSafe "अ॑क" = true ∧
  (syllabifyLine "अ॑क").2.1 =
    (syllabifyLine (Normalization.strip_svara_marks "अ॑क")).2.1 :=
  ⟨by decide, claim_C8 "अ॑क" (by decide)⟩

open PadaSandhi PyCompat in
/-- Claim C9: PadaSplitter degenerate behaviour.  Splitting collapses the
double marker into the single one, splits on the single marker, discards
blank chunks and indexes the kept chunks sequentially from zero; an input
with no marker yields exactly one pada holding the whole trimmed input, and
a blank (empty or whitespace-only) input yields zero padas, with no error
in any case. -/
theorem claim_C9 (t : List Char) :
    ((split_padas t).map Pada.index = List.range (split_padas t).length) ∧
    (∀ p ∈ split_padas t, p.text ≠ [] ∧ ∃ c ∈ p.text, pyIsSpace c = false) ∧
    ('|' ∉ t → pyStrip t ≠ [] →
       split_padas t = [⟨pyStrip t, 0, computeSandhiProfile (pyStrip t)⟩]) ∧
    (t.all pyIsSpace = true → split_padas t = []) := by
  refine ⟨?_, ?_, ?_, ?_⟩
  · show ((((splitOnChar '|' (collapseDouble t)).map pyStrip).filter
        (fun c => c ≠ [])).enum.map
        (fun p => (⟨p.2, p.1, computeSandhiProfile p.2⟩ : Pada))).map Pada.index = _
    rw [index_enum]
    simp [split_padas]
  · intro p hp
    simp only [split_padas, List.mem_map] at hp
    obtain ⟨q, hq, rfl⟩ := hp
    have hq2 : q.2 ∈ ((splitOnChar '|' (collapseDouble t)).map pyStrip).filter
        (fun c => c ≠ []) := by
      obtain ⟨-, hlt, heq⟩ := List.mem_enumFrom hq
      rw [heq]
      exact List.getElem_mem _
    have hne : q.2 ≠ [] := by
      have := List.of_mem_filter hq2
      simpa using this
    have hmem : q.2 ∈ (splitOnChar '|' (collapseDouble t)).map pyStrip :=
      List.mem_of_mem_filter hq2
    obtain ⟨c', -, hc'⟩ := List.mem_map.mp hmem
    refine ⟨hne, ?_⟩
    cases hq2v : q.2 with
    | nil => exact absurd hq2v hne
    | cons h0 tl =>
      refine ⟨h0, by simp [hq2v], ?_⟩
      rw [← hc'] at hq2v
      exact pyStrip_head c' h0 tl hq2v
  · intro hbar hne
    have h1 : collapseDouble t = t := collapse_no_bar t hbar
    have h2 : splitOnChar '|' t = [t] := split_no_sep '|' t hbar
    simp only [split_padas, h1, h2, List.map_cons, List.map_nil]
    rw [List.filter_cons_of_pos (by simpa using hne)]
    rfl
  · intro hall
    have hbar : '|' ∉ t := by
      intro hmem
      have := List.all_eq_true.mp hall '|' hmem
      exact absurd this (by decide)
    have h1 : collapseDouble t = t := collapse_no_bar t hbar
    have h2 : splitOnChar '|' t = [t] := split_no_sep '|' t hbar
    have h3 : pyStrip t = [] :=
      pyStrip_all_space t (fun c hc => List.all_eq_true.mp hall c hc)
    simp only [split_padas, h1, h2, List.map_cons, List.map_nil, h3]
    rfl

theorem claim_C9_witness :
  PadaSandhi.split_padas ['क'] =
    [⟨['क'], 0, PadaSandhi.computeSandhiProfile ['क']⟩] :=
  (claim_C9 ['क']).2.2.1 (by decide) (by decide)

/-- Claim C10, counterexample: a matched rule lacking its label (and
tolerance/support) keys makes the classifier raise KeyError while formatting
the matched-rule note, so with a non-empty parsed count list no result at
all is returned — refuting the claim for every rule table. -/
theorem claim_C10_cx :
  RuleBasedClassifier.parseCounts "8,8,8,8" ≠ [] ∧
  RuleBasedClassifier.classifyRuleBased 4 "8,8,8,8" "unknown"
      [⟨none, some 4, some [8, 8, 8, 8], none, none, none⟩] =
    Except.error RuleBasedClassifier.PyErr.keyError := ⟨by decide, rfl⟩

open RuleBasedClassifier in
/-- Claim C10 (amended): for every call of the classifier that returns
normally and whose syllable-count string parses to a non-empty list, the
result's base family is set (the closest-target loop over the fixed
non-empty seven-family table always selects some family), so the fully
unclassified outcome requires an empty parsed count list. -/
theorem claim_C10 (pc : Int) (s veda : String) (rules : List ChandaRule)
    (res : RuleBasedResult)
    (hok : classifyRuleBased pc s veda rules = Except.ok res)
    (hne : parseCounts s ≠ []) :
    res.base_family.isSome ∧
    (∀ (pc' c0 : Int) (cs : List Int),
      ((chooseBaseFamilyPingala pc' (c0 :: cs)).1).isSome) := by
  constructor
  · cases hcv : parseCounts s with
    | nil => exact absurd hcv hne
    | cons c0 cs =>
      cases hmv : matchChandaRule pc (parseCounts s) rules with
      | error e =>
        rw [classify_error pc s veda rules e hmv] at hok
        exact absurd hok (by simp)
      | ok pr =>
        obtain ⟨ro, rn⟩ := pr
        have hsome : ∃ f, (match ro.bind (fun r => r.base_family) with
             | some g => some g
             | none => (chooseBaseFamilyPingala pc (c0 :: cs)).1) = some f := by
          cases hbf : ro.bind (fun r => r.base_family) with
          | some g => exact ⟨g, rfl⟩
          | none =>
            obtain ⟨f, hf⟩ := Option.isSome_iff_exists.mp (choose_total pc c0 cs)
            exact ⟨f, by simp [hf]⟩
        obtain ⟨f, hf⟩ := hsome
        obtain ⟨res', hres', hbf', -, -⟩ :=
          classify_ok_of_family pc s veda rules ro rn f c0 cs hmv hcv hf
        rw [hok] at hres'
        obtain rfl : res = res' := Except.ok.inj hres'
        simp [hbf']
  · intro pc' c0 cs
    exact choose_total pc' c0 cs

open RuleBasedClassifier in
theorem claim_C10_witness :
  ∃ res, classifyRuleBased 4 "8,8,8,8" "unknown" [] = Except.ok res ∧
    res.base_family.isSome := by
  have h := claim_C10 4 "8,8,8,8" "unknown" [] _ rfl (by decide)
  exact ⟨_, rfl, h.1⟩
